import Mathlib

/-!
Verification of the responsive-sketchpad core: the stroke data model,
undo/redo/clear history, the `drawLine`/`setOptions` option handling, the
eraser engine (point marking and stroke re-segmentation), and the quadratic
curve interpolator.  All definitions are shallow embeddings of the
corresponding methods of the `Sketchpad` class; JavaScript numbers are
modelled as exact rationals (`ℚ`), JavaScript's optional/absent object
fields as `Option`.
-/

namespace Sketchpad

/-- Embedding of the `Point` shape `{x, y, skipped}`.  `skipped` is
`Option Bool` because the source sometimes builds point objects without a
`skipped` field at all (e.g. the first interpolated point); `none` models
an absent (`undefined`) field, which is falsy in JavaScript exactly like
`some false`. -/
structure Point where
  x : ℚ
  y : ℚ
  skipped : Option Bool
  deriving DecidableEq

/-- Embedding of the `Stroke` class.  The TypeScript fields are optional
(`points?`, `width?`, ...), but every stroke built by the code paths under
verification (`pushStroke`, eraser fragments, interpolation output)
populates all of them, so they are modelled as plain fields.  `cap` and
`join` are the CSS enum strings (`'round'`, ...). -/
structure Stroke where
  points : List Point
  width : ℚ
  color : String
  cap : String
  join : String
  miterLimit : ℚ
  isInterpolationDone : Bool
  deriving DecidableEq

/-- Embedding of `LineOptionsI`: every field optional, as in the source. -/
structure LineOptions where
  size : Option ℚ
  color : Option String
  cap : Option String
  join : Option String
  miterLimit : Option ℚ
  isInterpolationDone : Option Bool
  deriving DecidableEq

/-- The mutable state of a `Sketchpad` instance, restricted to the data
fields the core operations read or write.  Presentation-only state (the
2D context, background color, the DOM eraser cursor) has no effect on the
stroke data and is omitted.  `width`/`height` are `canvas.width` and
`canvas.height` in pixels. -/
structure Pad where
  strokes : List Stroke
  undoneStrokes : List Stroke
  sketching : Bool
  isEraserActive : Bool
  readOnly : Bool
  width : ℚ
  height : ℚ
  lineWidth : ℚ
  lineColor : String
  lineCap : String
  lineJoin : String
  lineMiterLimit : ℚ
  isInterpolationDone : Bool
  eraserSize : ℚ
  deriving DecidableEq

/-- Embedding of `undo()`: no-op when the stroke list is empty, otherwise
pop the last stroke and push it onto `undoneStrokes` (the redraw that
follows does not touch the data). -/
def undo (st : Pad) : Pad :=
  match st.strokes.getLast? with
  | none => st
  | some s =>
    { st with strokes := st.strokes.dropLast
              undoneStrokes := st.undoneStrokes ++ [s] }

/-- Embedding of `redo()`: no-op when `undoneStrokes` is empty, otherwise
pop its last element and push it back onto the stroke list. -/
def redo (st : Pad) : Pad :=
  match st.undoneStrokes.getLast? with
  | none => st
  | some s =>
    { st with undoneStrokes := st.undoneStrokes.dropLast
              strokes := st.strokes ++ [s] }

/-- Embedding of `clear()`: empties both the stroke list and the undo
stack. -/
def clear (st : Pad) : Pad :=
  { st with undoneStrokes := [], strokes := [] }

/-- Embedding of `getPointRelativeToCanvas`: divide by the canvas size and
attach `skipped: false`. -/
def getPointRelativeToCanvas (st : Pad) (p : ℚ × ℚ) : Point :=
  ⟨p.1 / st.width, p.2 / st.height, some false⟩

/-- Embedding of `getLineWidthRelativeToCanvas` (also
`getLineSizeRelativeToCanvas`): divide by the canvas width only. -/
def getLineWidthRelativeToCanvas (st : Pad) (w : ℚ) : ℚ :=
  w / st.width

/-- Embedding of the `line` branch of the private `setOptions`, which is
how `drawLine` applies its `lineOpts` argument
(`this.setOptions({ line: lineOpts })`); the other branches of
`setOptions` receive no data from `drawLine`.  Each field updates the
pad's persistent default only when the supplied value is truthy
(a nonzero number, a nonempty string, or `true`).  Note there is no branch
for `color`: `setOptions` never reads `opts.line.color`. -/
def setOptionsLine (l : LineOptions) (st : Pad) : Pad :=
  let st1 := match l.size with
    | some v => if v ≠ 0 then { st with lineWidth := v } else st
    | none => st
  let st2 := match l.isInterpolationDone with
    | some b => if b then { st1 with isInterpolationDone := true } else st1
    | none => st1
  let st3 := match l.cap with
    | some c => if c ≠ "" then { st2 with lineCap := c } else st2
    | none => st2
  let st4 := match l.join with
    | some j => if j ≠ "" then { st3 with lineJoin := j } else st3
    | none => st3
  match l.miterLimit with
    | some m => if m ≠ 0 then { st4 with lineMiterLimit := m } else st4
    | none => st4

/-- Embedding of the private `pushStroke`: append a fresh stroke built
from the pad's current default style (width renormalized against the
canvas width). -/
def pushStroke (st : Pad) (pts : List Point) : Pad :=
  { st with strokes := st.strokes ++ [{
      points := pts
      width := getLineWidthRelativeToCanvas st st.lineWidth
      color := st.lineColor
      cap := st.lineCap
      join := st.lineJoin
      miterLimit := st.lineMiterLimit
      isInterpolationDone := st.isInterpolationDone }] }

/-- Embedding of the private `pushPoint`: append a point to the last
stroke.  The source reads `this._strokes[this._strokes.length - 1]` and
appends to its `points`; with no stroke present the source would fault,
which no handler flow reaches, so that case is modelled as a no-op. -/
def pushPoint (p : Point) (st : Pad) : Pad :=
  match st.strokes.getLast? with
  | none => st
  | some s =>
    { st with strokes := st.strokes.dropLast ++ [{ s with points := s.points ++ [p] }] }

/-- Embedding of `drawLine(start, end, lineOpts)`: apply the line options
to the persistent defaults via `setOptions`, normalize both endpoints,
and push the two-point stroke (the final redraw does not touch data). -/
def drawLine (a b : ℚ × ℚ) (l : LineOptions) (st : Pad) : Pad :=
  let st1 := setOptionsLine l st
  let s := getPointRelativeToCanvas st1 a
  let e := getPointRelativeToCanvas st1 b
  pushStroke st1 [s, e]

/-- Shared squared-distance helper: `dx*dx + dy*dy` exactly as both
`erasePoints` and the interpolator's `Math.hypot` argument compute it. -/
def distanceSquared (p q : ℚ × ℚ) : ℚ :=
  (p.1 - q.1) * (p.1 - q.1) + (p.2 - q.2) * (p.2 - q.2)

/-- JavaScript truthiness of `point.skipped`: only an actual `true` is
truthy; `false` and an absent field are falsy. -/
def isSkipped (p : Point) : Bool :=
  p.skipped = some true

/-- The `areaOfEraser` local of `erasePoints`: the squared normalized
eraser radius, where the radius is
`getLineWidthRelativeToCanvas(eraserSize) / 2`. -/
def areaOfEraser (st : Pad) : ℚ :=
  let eraserRadius := getLineWidthRelativeToCanvas st st.eraserSize / 2
  eraserRadius * eraserRadius

/-- The per-point body of the `erasePoints` loops: mark the point as
skipped when its squared distance from the cursor is at most the squared
eraser radius (a non-strict comparison in the source). -/
def markPoint (cursor : ℚ × ℚ) (area : ℚ) (p : Point) : Point :=
  if distanceSquared (p.x, p.y) cursor ≤ area then { p with skipped := some true } else p

/-- Embedding of the private `erasePoints(cursor)`: mark every point of
every stroke that lies within the eraser radius of the cursor. -/
def erasePoints (cursor : ℚ × ℚ) (st : Pad) : Pad :=
  { st with strokes := st.strokes.map fun s =>
      { s with points := s.points.map (markPoint cursor (areaOfEraser st)) } }

/-- Functional rendering of the scanning loop inside
`createNewStrokesAfterErasing`: `acc` is the candidate fragment
(`newStroke.points`).  A skipped point seals a non-empty candidate and
resets it; an unskipped point is appended, and in the source the candidate
is also sealed when the unskipped point is the last one — emitting the
trailing non-empty candidate when the scan ends is the same behaviour. -/
def runsAux : List Point → List Point → List (List Point)
  | acc, [] => if acc.isEmpty then [] else [acc]
  | acc, p :: rest =>
    if isSkipped p then
      if acc.isEmpty then runsAux [] rest else acc :: runsAux [] rest
    else
      runsAux (acc ++ [p]) rest

/-- The fragments `createNewStrokesAfterErasing` produces for one stroke:
one new stroke per contiguous run of unskipped points, each carrying the
parent stroke's style attributes. -/
def fragmentsOfStroke (s : Stroke) : List Stroke :=
  (runsAux [] s.points).map fun ps => { s with points := ps }

/-- Embedding of the private `createNewStrokesAfterErasing`: replace the
whole stroke list by the concatenation, in order, of every stroke's
fragments. -/
def createNewStrokesAfterErasing (st : Pad) : Pad :=
  { st with strokes := st.strokes.flatMap fragmentsOfStroke }

/-- Embedding of the private `midPoint`. -/
def midPoint (p q : ℚ × ℚ) : ℚ × ℚ :=
  ((p.1 + q.1) / 2, (p.2 + q.2) / 2)

/-- Fuel-driven search for the least `n : ℕ` with `s ≤ 4 n²`, scanning
upward from `n`.  This is how `Math.max(1, Math.ceil(distance / 2))` is
made computable over `ℚ`: the source's `distance` is `Math.hypot`, a real
square root, and `⌈√s / 2⌉` is exactly the least natural `n` with
`s ≤ (2n)²` (proved below against the `Real.sqrt` formula). -/
def leastNAux (s : ℚ) : ℕ → ℕ → ℕ
  | 0, n => n
  | f + 1, n => if s ≤ 4 * (n : ℚ) ^ 2 then n else leastNAux s f (n + 1)

/-- Computable `⌈√s / 2⌉` for `s = distance²`; enough fuel is
`s.num.toNat + 1` since `s ≤ 4 (s.num.toNat + 1)²`. -/
def ceilHalfSqrt (s : ℚ) : ℕ :=
  leastNAux s (s.num.toNat + 1) 0

/-- The `numIntervals` computation of the interpolator:
`Math.max(1, Math.ceil(distance / interval))` with the fixed interval 2
that `endStrokeHandler` passes, taking the squared distance. -/
def numIntervals (s : ℚ) : ℕ :=
  max 1 (ceilHalfSqrt s)

/-- The quadratic Bezier evaluation of `interpolateQuadraticCurve`:
`B(t) = (1-t)²·origin + 2(1-t)t·control + t²·destination`, per
coordinate. -/
def bezPoint (o c d : ℚ × ℚ) (t : ℚ) : ℚ × ℚ :=
  ((1 - t) ^ 2 * o.1 + 2 * (1 - t) * t * c.1 + t ^ 2 * d.1,
   (1 - t) ^ 2 * o.2 + 2 * (1 - t) * t * c.2 + t ^ 2 * d.2)

/-- Embedding of the private `interpolateQuadraticCurve`: sample the
Bezier at `t = pt / numPoints` for `pt = 0, ..., numPoints - 1`, in
order. -/
def interpolateQuadraticCurve (o c d : ℚ × ℚ) (numPoints : ℕ) : List (ℚ × ℚ) :=
  (List.range numPoints).map fun (pt : ℕ) => bezPoint o c d ((pt : ℚ) / (numPoints : ℚ))

/-- The per-arc sampling step of `interpolateExistingShapePaths`: chord
distance from origin to destination, `numIntervals` samples. -/
def sampleArc (o c d : ℚ × ℚ) : List (ℚ × ℚ) :=
  interpolateQuadraticCurve o c d (numIntervals (distanceSquared d o))

/-- The `for (let j = 1; ...)` loop of `interpolateExistingShapePaths`:
the previous arc's destination becomes the next origin, the raw point
`t[j]` is the control point, and the destination is the midpoint of
`t[j]` and `t[j+1]`; the loop stops when fewer than two points remain. -/
def interpLoop : ℚ × ℚ → List (ℚ × ℚ) → List (ℚ × ℚ)
  | _, [] => []
  | _, [_] => []
  | dPrev, tj :: tj1 :: rest =>
    sampleArc dPrev tj (midPoint tj tj1) ++ interpLoop (midPoint tj tj1) (tj1 :: rest)

/-- Denormalization used by the interpolator (`point.x * width`,
`point.y * height`); only the coordinates are used downstream. -/
def toPixel (W H : ℚ) (p : Point) : ℚ × ℚ :=
  (p.x * W, p.y * H)

/-- Renormalization of an emitted arc sample: the source pushes
`{x: x / width, y: y / height, skipped: false}`. -/
def toNormalized (W H : ℚ) (q : ℚ × ℚ) : Point :=
  ⟨q.1 / W, q.2 / H, some false⟩

/-- The point-list computation of `interpolateExistingShapePaths` on the
already-denormalized points: the first raw point is re-emitted with only
`x` and `y` (no `skipped` field, hence `none`); with at least two points
the first arc runs from `t0` (also its own control point) to
`mid(t0, t1)` and the remaining arcs come from the loop.  The source
indexes `transformedPoints[0]` unconditionally and would fault on an
empty list; that unreachable case is modelled as an empty output. -/
def interpPoints (W H : ℚ) : List (ℚ × ℚ) → List Point
  | [] => []
  | [t0] => [⟨t0.1 / W, t0.2 / H, none⟩]
  | t0 :: t1 :: rest =>
    ⟨t0.1 / W, t0.2 / H, none⟩ ::
      (sampleArc t0 t0 (midPoint t0 t1) ++
        interpLoop (midPoint t0 t1) (t1 :: rest)).map (toNormalized W H)

/-- Embedding of the private `interpolateExistingShapePaths(stroke, 2)`:
denormalize, resample, renormalize; the output stroke keeps the style
attributes and is flagged `isInterpolationDone`. -/
def interpolateExistingShapePaths (W H : ℚ) (s : Stroke) : Stroke :=
  { s with isInterpolationDone := true
           points := interpPoints W H (s.points.map (toPixel W H)) }

/-- Embedding of the private `createNewStrokesAfterInterpolation` as
called at stroke end (`interval = 2`, argument `_strokes[len - 1]`):
replace the last stroke by its interpolated form.  With no stroke the
source would fault on `undefined`; modelled as a no-op. -/
def createNewStrokesAfterInterpolation (st : Pad) : Pad :=
  match st.strokes.getLast? with
  | none => st
  | some s =>
    { st with strokes :=
        st.strokes.dropLast ++ [interpolateExistingShapePaths st.width st.height s] }

/-- Embedding of the private `startStrokeHandler` at pixel cursor
`(px, py)`: bail out when read-only, set `sketching`, then either run the
eraser marking pass or start a fresh one-point stroke. -/
def startStrokeHandler (px py : ℚ) (st : Pad) : Pad :=
  if st.readOnly then st
  else
    let st1 := { st with sketching := true }
    let cursor := (px / st1.width, py / st1.height)
    if st1.isEraserActive then erasePoints cursor st1
    else pushStroke st1 [⟨cursor.1, cursor.2, some false⟩]

/-- Embedding of the private `drawStrokeHandler`: ignored unless
`sketching`; then either the eraser marking pass or a point append. -/
def drawStrokeHandler (px py : ℚ) (st : Pad) : Pad :=
  if st.sketching then
    let cursor := (px / st.width, py / st.height)
    if st.isEraserActive then erasePoints cursor st
    else pushPoint ⟨cursor.1, cursor.2, some false⟩ st
  else st

/-- Embedding of the private `endStrokeHandler`: ignored unless
`sketching`, which it resets; a touch end carries no position and returns
immediately.  A mouse end runs the eraser marking pass (eraser mode) or
appends the final point and interpolates the finished stroke (draw mode),
and in both modes then runs the re-segmentation
`createNewStrokesAfterErasing`. -/
def endStrokeHandler (isTouch : Bool) (px py : ℚ) (st : Pad) : Pad :=
  if st.sketching then
    let st1 := { st with sketching := false }
    if isTouch then st1
    else
      let cursor := (px / st1.width, py / st1.height)
      let st2 :=
        if st1.isEraserActive then erasePoints cursor st1
        else createNewStrokesAfterInterpolation (pushPoint ⟨cursor.1, cursor.2, some false⟩ st1)
      createNewStrokesAfterErasing st2
  else st

/-- Description of the interpolator's arc chain in the specification's
terms, for the inner arcs: for consecutive raw points the arc endpoints
are the midpoints of consecutive raw points and the raw point itself is
the control point.  Listed as (origin, control, destination) triples. -/
def innerArcs : ℚ × ℚ → List (ℚ × ℚ) → List ((ℚ × ℚ) × (ℚ × ℚ) × (ℚ × ℚ))
  | _, [] => []
  | _, [_] => []
  | prev, b :: c :: rest => (midPoint prev b, b, midPoint b c) :: innerArcs b (c :: rest)

/-- All arcs of the interpolator for a denormalized point list, in the
specification's terms: the initial arc starts at the first raw point
(which is also its control point) and ends at the first midpoint, then
the inner arcs follow. -/
def specArcs : List (ℚ × ℚ) → List ((ℚ × ℚ) × (ℚ × ℚ) × (ℚ × ℚ))
  | [] => []
  | [_] => []
  | a :: b :: rest => (a, a, midPoint a b) :: innerArcs a (b :: rest)

/-- A line options record with every field absent. -/
def noLineOptions : LineOptions :=
  ⟨none, none, none, none, none, none⟩

/-- A committed two-point stroke used as concrete test data. -/
def strokeA : Stroke :=
  { points := [⟨0, 0, some false⟩, ⟨1/5, 1/5, some false⟩]
    width := 1/20
    color := "#f00"
    cap := "round"
    join := "round"
    miterLimit := 10
    isInterpolationDone := false }

/-- A concrete pad holding `strokeA`, in draw mode, on a 100 x 100
canvas with the source's default style values. -/
def padA : Pad :=
  { strokes := [strokeA]
    undoneStrokes := []
    sketching := false
    isEraserActive := false
    readOnly := false
    width := 100
    height := 100
    lineWidth := 5
    lineColor := "#000"
    lineCap := "round"
    lineJoin := "round"
    lineMiterLimit := 10
    isInterpolationDone := false
    eraserSize := 20 }

/-- The stroke `drawLine((10,10), (20,20), {})` commits on `padA`'s
canvas: endpoints normalized by 100, width `5 / 100`, default style. -/
def lineStroke : Stroke :=
  { points := [⟨1/10, 1/10, some false⟩, ⟨1/5, 1/5, some false⟩]
    width := 1/20
    color := "#000"
    cap := "round"
    join := "round"
    miterLimit := 10
    isInterpolationDone := false }

/-- A stroke with one point at the canvas center and one far away. -/
def strokeB : Stroke :=
  { strokeA with points := [⟨1/2, 1/2, some false⟩, ⟨9/10, 9/10, some false⟩] }

/-- A pad in eraser mode holding `strokeB` (eraser size 20 pixels on a
100-pixel-wide canvas, i.e. normalized radius 1/10). -/
def padB : Pad :=
  { padA with strokes := [strokeB], isEraserActive := true }

/-- `padB` mid-gesture (`sketching` set). -/
def padB2 : Pad :=
  { padB with sketching := true }

/-- A one-point stroke sitting exactly at the canvas center. -/
def strokeC : Stroke :=
  { strokeA with points := [⟨1/2, 1/2, some false⟩] }

/-- A pad holding `strokeC` whose eraser size is 0 pixels, so the
normalized eraser radius is 0. -/
def padC : Pad :=
  { padA with strokes := [strokeC], eraserSize := 0 }

/-- The i-th of five collinear points, with the middle (third) one
marked as erased. -/
def pt5 (i : ℕ) : Point :=
  ⟨(i : ℚ) / 10, (i : ℚ) / 10, if i = 2 then some true else some false⟩

/-- A five-point collinear stroke whose middle point is marked. -/
def stroke5 : Stroke :=
  { strokeA with points := [pt5 0, pt5 1, pt5 2, pt5 3, pt5 4] }

/-- A stroke every point of which is marked as erased. -/
def strokeFullySkipped : Stroke :=
  { strokeA with points := [⟨0, 0, some true⟩, ⟨1, 1, some true⟩] }

/-- A single raw point used for the interpolation witnesses. -/
def exPoint : Point :=
  ⟨1/2, 1/4, some false⟩

end Sketchpad

namespace Sketchpad

/-! Helper lemmas about the re-segmentation scan. -/

lemma runsAux_all_skipped :
    ∀ (pts acc : List Point), (∀ p ∈ pts, isSkipped p = true) →
      runsAux acc pts = if acc.isEmpty then [] else [acc] := by
  intro pts
  induction pts with
  | nil => intro acc _; rfl
  | cons q rest ih =>
    intro acc hall
    have hq : isSkipped q = true := hall q (List.mem_cons_self q rest)
    have hrest : ∀ p ∈ rest, isSkipped p = true :=
      fun p hp => hall p (List.mem_cons_of_mem q hp)
    simp only [runsAux, hq]
    rw [ih [] hrest]
    by_cases ha : acc.isEmpty = true <;> simp [ha]

lemma runsAux_none_skipped :
    ∀ (pts acc : List Point), (∀ p ∈ pts, isSkipped p = false) →
      acc.isEmpty = false ∨ pts ≠ [] → runsAux acc pts = [acc ++ pts] := by
  intro pts
  induction pts with
  | nil =>
    intro acc _ hor
    rcases hor with h | h
    · simp [runsAux, h]
    · exact absurd rfl h
  | cons q rest ih =>
    intro acc hall _
    have hq : isSkipped q = false := hall q (List.mem_cons_self q rest)
    have hrest : ∀ p ∈ rest, isSkipped p = false :=
      fun p hp => hall p (List.mem_cons_of_mem q hp)
    simp only [runsAux, hq]
    rw [ih (acc ++ [q]) hrest (Or.inl (by simp))]
    simp

lemma runsAux_mem_not_skipped :
    ∀ (pts acc : List Point), (∀ p ∈ acc, isSkipped p = false) →
      ∀ run ∈ runsAux acc pts, ∀ p ∈ run, isSkipped p = false := by
  intro pts
  induction pts with
  | nil =>
    intro acc hacc run hrun p hp
    by_cases h : acc.isEmpty = true
    · simp [runsAux, h] at hrun
    · simp [runsAux, h] at hrun
      subst hrun
      exact hacc p hp
  | cons q rest ih =>
    intro acc hacc run hrun p hp
    simp only [runsAux] at hrun
    by_cases hq : isSkipped q = true
    · rw [if_pos hq] at hrun
      by_cases ha : acc.isEmpty = true
      · rw [if_pos ha] at hrun
        exact ih [] (by simp) run hrun p hp
      · rw [if_neg ha] at hrun
        rcases List.mem_cons.mp hrun with h | h
        · subst h; exact hacc p hp
        · exact ih [] (by simp) run h p hp
    · rw [if_neg hq] at hrun
      refine ih (acc ++ [q]) ?_ run hrun p hp
      intro r hr
      rcases List.mem_append.mp hr with h | h
      · exact hacc r h
      · rw [List.mem_singleton.mp h]
        simpa using hq

lemma createNewStrokesAfterErasing_no_skipped (st : Pad) :
    ∀ s ∈ (createNewStrokesAfterErasing st).strokes, ∀ p ∈ s.points, isSkipped p = false := by
  intro s hs p hp
  simp only [createNewStrokesAfterErasing] at hs
  rw [List.mem_flatMap] at hs
  obtain ⟨s0, _, hfrag⟩ := hs
  simp only [fragmentsOfStroke, List.mem_map] at hfrag
  obtain ⟨run, hrun, rfl⟩ := hfrag
  exact runsAux_mem_not_skipped _ [] (by simp) run hrun p hp

/-! Claims about the document history (C7, C8). -/

/-- C7: on a non-empty stroke list, `undo()` pops exactly the last stroke
onto the undo stack and an immediate `redo()` restores the original
state; `undo()` on an empty stroke list and `redo()` on an empty undo
stack change nothing. -/
theorem undo_redo_inverse (st : Pad) :
    (st.strokes ≠ [] → redo (undo st) = st)
    ∧ (st.strokes = [] → undo st = st)
    ∧ (st.undoneStrokes = [] → redo st = st) := by
  refine ⟨?_, ?_, ?_⟩
  · intro h
    obtain ⟨l, s, hls⟩ : ∃ l s, st.strokes = l ++ [s] := by
      rcases List.eq_nil_or_concat st.strokes with h1 | ⟨l, s, h1⟩
      · exact absurd h1 h
      · exact ⟨l, s, by simpa [List.concat_eq_append] using h1⟩
    rcases st with ⟨strokes, undone, sk, er, ro, w, hgt, lw, lc, lcp, lj, lm, ip, es⟩
    simp only at hls
    subst hls
    simp [undo, redo, List.getLast?_concat, List.dropLast_concat]
  · intro h
    simp [undo, h]
  · intro h
    simp [redo, h]

/-- Witness for C7 at the concrete pad `padA`. -/
theorem undo_redo_inverse_witness : redo (undo padA) = padA :=
  (undo_redo_inverse padA).1 (by simp [padA])

/-- C8: `clear()` empties both the stroke list and the undo stack, and an
`undo()` right after `clear()` is a no-op. -/
theorem clear_empties_and_undo_noop (st : Pad) :
    (clear st).strokes = [] ∧ (clear st).undoneStrokes = [] ∧ undo (clear st) = clear st :=
  ⟨rfl, rfl, rfl⟩

/-! Helper lemmas about `setOptions` as invoked from `drawLine` (C9, C1). -/

lemma setOptionsLine_color_irrelevant (l : LineOptions) (c : Option String) (st : Pad) :
    setOptionsLine { l with color := c } st = setOptionsLine l st := by
  rcases l with ⟨sz, co, cp, jn, ml, ip⟩
  rfl

lemma setOptionsLine_eq (l : LineOptions) (st : Pad) :
    setOptionsLine l st =
      { st with
        lineWidth :=
          match l.size with | some v => if v ≠ 0 then v else st.lineWidth | none => st.lineWidth
        isInterpolationDone :=
          match l.isInterpolationDone with
          | some b => if b then true else st.isInterpolationDone
          | none => st.isInterpolationDone
        lineCap :=
          match l.cap with | some c => if c ≠ "" then c else st.lineCap | none => st.lineCap
        lineJoin :=
          match l.join with | some j => if j ≠ "" then j else st.lineJoin | none => st.lineJoin
        lineMiterLimit :=
          match l.miterLimit with
          | some m => if m ≠ 0 then m else st.lineMiterLimit
          | none => st.lineMiterLimit } := by
  rcases l with ⟨sz, co, cp, jn, ml, ip⟩
  rcases sz with _ | v <;> rcases ip with _ | b <;> rcases cp with _ | c <;>
    rcases jn with _ | j <;> rcases ml with _ | m <;>
    simp only [setOptionsLine] <;> split_ifs <;> rfl

/-- C9: `drawLine` applies its `lineOpts` argument by mutating the pad's
persistent default style — truthy `size`/`cap`/`join`/`miterLimit` values
permanently replace the defaults (and the replaced values are what the
inserted stroke carries) — while `lineOpts.color` is never read at all,
so the inserted line carries the previously-set default color. -/
theorem drawLine_mutates_defaults_ignores_color (st : Pad) (a b : ℚ × ℚ) (l : LineOptions) :
    (∀ c : Option String, drawLine a b { l with color := c } st = drawLine a b l st)
    ∧ (drawLine a b l st).lineColor = st.lineColor
    ∧ (drawLine a b l st).strokes.getLast? = some
        { points := [getPointRelativeToCanvas st a, getPointRelativeToCanvas st b]
          width := (drawLine a b l st).lineWidth / st.width
          color := st.lineColor
          cap := (drawLine a b l st).lineCap
          join := (drawLine a b l st).lineJoin
          miterLimit := (drawLine a b l st).lineMiterLimit
          isInterpolationDone := (drawLine a b l st).isInterpolationDone }
    ∧ (drawLine a b l st).lineWidth
        = (match l.size with | some v => if v ≠ 0 then v else st.lineWidth | none => st.lineWidth)
    ∧ (drawLine a b l st).lineCap
        = (match l.cap with | some c => if c ≠ "" then c else st.lineCap | none => st.lineCap)
    ∧ (drawLine a b l st).lineJoin
        = (match l.join with | some j => if j ≠ "" then j else st.lineJoin | none => st.lineJoin)
    ∧ (drawLine a b l st).lineMiterLimit
        = (match l.miterLimit with
           | some m => if m ≠ 0 then m else st.lineMiterLimit
           | none => st.lineMiterLimit) := by
  refine ⟨fun c => by simp only [drawLine, setOptionsLine_color_irrelevant], ?_, ?_, ?_, ?_, ?_, ?_⟩ <;>
    simp [drawLine, pushStroke, getPointRelativeToCanvas, getLineWidthRelativeToCanvas,
      setOptionsLine_eq, List.getLast?_concat]

/-! Claim C1: the redo stack is not cleared by a new commit. -/

/-- C1 (failing-input evaluation): after `undo()` on `padA` and a fresh
commit through `drawLine`, the undone stroke is still on the redo stack
and `redo()` is not a no-op — it appends the stale stroke `strokeA`
after the new one.  The code never clears `undoneStrokes` on commit, so
the claimed invariant fails. -/
theorem redo_after_drawLine_resurrects_undone :
    (drawLine (10, 10) (20, 20) noLineOptions (undo padA)).undoneStrokes = [strokeA]
    ∧ (redo (drawLine (10, 10) (20, 20) noLineOptions (undo padA))).strokes.getLast?
        = some strokeA
    ∧ redo (drawLine (10, 10) (20, 20) noLineOptions (undo padA))
        ≠ drawLine (10, 10) (20, 20) noLineOptions (undo padA) := by
  have h1 : undo padA = { padA with strokes := [], undoneStrokes := [strokeA] } := by
    simp [undo, padA]
  have h2 : drawLine (10, 10) (20, 20) noLineOptions (undo padA)
      = { padA with strokes := [lineStroke], undoneStrokes := [strokeA] } := by
    rw [h1]
    norm_num [drawLine, setOptionsLine, noLineOptions, pushStroke, getPointRelativeToCanvas,
      getLineWidthRelativeToCanvas, padA, lineStroke]
  have h3 : redo { padA with strokes := [lineStroke], undoneStrokes := [strokeA] }
      = { padA with strokes := [lineStroke, strokeA], undoneStrokes := [] } := by
    simp [redo]
  refine ⟨by rw [h2], by rw [h2, h3]; simp, ?_⟩
  rw [h2, h3]
  intro heq
  have hh := congrArg Pad.strokes heq
  simp at hh

/-! Claim C2: when the eraser engine actually runs. -/

/-- C2 (counterexample): a single pointer-down handled in eraser mode on
`padB` finishes with a `skipped = true` point still in the stroke list —
the marking pass runs but re-segmentation does not, so skipped marks are
not reified into separate strokes between pointer events. -/
theorem eraser_pointer_down_leaves_skipped_marks :
    ((startStrokeHandler 50 50 padB).strokes.map fun s => s.points.map Point.skipped)
      = [[some true, some false]] := by
  norm_num [startStrokeHandler, erasePoints, markPoint, areaOfEraser,
    getLineWidthRelativeToCanvas, distanceSquared, padB, padA, strokeB, strokeA]

/-- C2 (amended): pointer-down and pointer-move in eraser mode run only
the marking pass `erasePoints` (no re-segmentation), and the
re-segmentation runs at pointer-up: a mouse `endStrokeHandler` ends with
`createNewStrokesAfterErasing`, after which no point of any stroke is
marked `skipped`. -/
theorem eraser_marks_deferred_resegmentation (px py : ℚ) (st : Pad)
    (h1 : st.sketching = true) :
    (∀ s ∈ (endStrokeHandler false px py st).strokes, ∀ p ∈ s.points, isSkipped p = false)
    ∧ (st.readOnly = false → st.isEraserActive = true →
        startStrokeHandler px py st
          = erasePoints (px / st.width, py / st.height) { st with sketching := true })
    ∧ (st.isEraserActive = true →
        drawStrokeHandler px py st = erasePoints (px / st.width, py / st.height) st) := by
  refine ⟨?_, ?_, ?_⟩
  · intro s hs p hp
    simp only [endStrokeHandler, h1, if_true, Bool.false_eq_true, if_false] at hs
    exact createNewStrokesAfterErasing_no_skipped _ s hs p hp
  · intro hro her
    simp [startStrokeHandler, hro, her]
  · intro her
    simp [drawStrokeHandler, h1, her]

/-- Witness for C2's amended claim: on the concrete mid-gesture pad
`padB2`, pointer-down runs exactly the marking pass. -/
theorem eraser_marks_deferred_resegmentation_witness :
    startStrokeHandler 50 50 padB2
      = erasePoints (50 / padB2.width, 50 / padB2.height) { padB2 with sketching := true } :=
  (eraser_marks_deferred_resegmentation 50 50 padB2 rfl).2.1 rfl rfl

/-! Claim C3: eraser hit test at radius 0 and at full coverage. -/

/-- C3 (counterexample): with eraser size 0 — normalized radius 0 — the
non-strict hit test `distance² ≤ radius²` still marks a point lying
exactly at the eraser center, and re-segmentation then removes the
stroke, so "radius 0 never removes any point" fails. -/
theorem erase_radius_zero_marks_center_point :
    ((erasePoints (1/2, 1/2) padC).strokes.map fun s => s.points.map Point.skipped)
      = [[some true]]
    ∧ (createNewStrokesAfterErasing (erasePoints (1/2, 1/2) padC)).strokes = [] := by
  constructor
  · norm_num [erasePoints, markPoint, areaOfEraser, getLineWidthRelativeToCanvas,
      distanceSquared, padC, padA, strokeC, strokeA]
  · norm_num [createNewStrokesAfterErasing, fragmentsOfStroke, runsAux, isSkipped,
      erasePoints, markPoint, areaOfEraser, getLineWidthRelativeToCanvas,
      distanceSquared, padC, padA, strokeC, strokeA]

/-- C3 (amended): an erase pass with radius 0 marks exactly the points
coinciding with the eraser center (any point at positive distance is
untouched), and an erase pass whose radius covers every point of a
stroke marks all of them, so re-segmentation yields zero fragments for
that stroke. -/
theorem erase_radius_zero_and_full_coverage (st : Pad) (cursor : ℚ × ℚ) :
    (st.eraserSize = 0 →
      (erasePoints cursor st).strokes = st.strokes.map fun s =>
        { s with points := s.points.map fun p =>
            if p.x = cursor.1 ∧ p.y = cursor.2 then { p with skipped := some true } else p })
    ∧ ∀ s ∈ st.strokes,
        (∀ p ∈ s.points, distanceSquared (p.x, p.y) cursor ≤ areaOfEraser st) →
          fragmentsOfStroke
              { s with points := s.points.map (markPoint cursor (areaOfEraser st)) } = [] := by
  constructor
  · intro h0
    have harea : areaOfEraser st = 0 := by
      simp [areaOfEraser, getLineWidthRelativeToCanvas, h0]
    have hmark : markPoint cursor (areaOfEraser st) = fun p =>
        if p.x = cursor.1 ∧ p.y = cursor.2 then { p with skipped := some true } else p := by
      funext p
      rw [harea, markPoint]
      by_cases hc : p.x = cursor.1 ∧ p.y = cursor.2
      · rw [if_pos hc, if_pos]
        simp [distanceSquared, hc.1, hc.2]
      · rw [if_neg hc, if_neg]
        intro hle
        apply hc
        have hx2 : (p.x - cursor.1) * (p.x - cursor.1) = 0 := by
          have hy := mul_self_nonneg (p.y - cursor.2)
          have hx := mul_self_nonneg (p.x - cursor.1)
          simp only [distanceSquared] at hle
          nlinarith
        have hy2 : (p.y - cursor.2) * (p.y - cursor.2) = 0 := by
          have hy := mul_self_nonneg (p.y - cursor.2)
          have hx := mul_self_nonneg (p.x - cursor.1)
          simp only [distanceSquared] at hle
          nlinarith
        exact ⟨sub_eq_zero.mp (mul_self_eq_zero.mp hx2),
               sub_eq_zero.mp (mul_self_eq_zero.mp hy2)⟩
    rw [erasePoints, hmark]
  · intro s _ hcov
    rw [fragmentsOfStroke]
    have hall : ∀ p ∈ s.points.map (markPoint cursor (areaOfEraser st)), isSkipped p = true := by
      intro p hp
      rcases List.mem_map.mp hp with ⟨q, hq, rfl⟩
      rw [markPoint, if_pos (hcov q hq)]
      simp [isSkipped]
    rw [runsAux_all_skipped _ [] hall]
    simp

/-- Witness for C3's amended claim at the concrete pad `padC` (eraser
size 0). -/
theorem erase_radius_zero_and_full_coverage_witness :
    (erasePoints (1/2, 1/2) padC).strokes = padC.strokes.map fun s =>
      { s with points := s.points.map fun p =>
          if p.x = ((1:ℚ)/2, (1:ℚ)/2).1 ∧ p.y = ((1:ℚ)/2, (1:ℚ)/2).2
          then { p with skipped := some true } else p } :=
  (erase_radius_zero_and_full_coverage padC (1/2, 1/2)).1 rfl

/-! Claim C4: the three re-segmentation cases. -/

/-- C4: a fully-marked stroke yields zero fragments; an unmarked,
non-empty stroke yields exactly one fragment equal to itself (the
non-emptiness assumption is the document invariant that committed
strokes have points); and the five-point collinear stroke with its
middle point marked yields exactly two two-point fragments, both
carrying the parent's style. -/
theorem resegmentation_fragment_cases (s : Stroke) :
    ((∀ p ∈ s.points, isSkipped p = true) → fragmentsOfStroke s = [])
    ∧ (s.points ≠ [] → (∀ p ∈ s.points, isSkipped p = false) → fragmentsOfStroke s = [s])
    ∧ fragmentsOfStroke stroke5
        = [{ stroke5 with points := [pt5 0, pt5 1] },
           { stroke5 with points := [pt5 3, pt5 4] }] := by
  refine ⟨?_, ?_, ?_⟩
  · intro hall
    rw [fragmentsOfStroke, runsAux_all_skipped _ [] hall]
    simp
  · intro hne hall
    rw [fragmentsOfStroke, runsAux_none_skipped _ [] hall (Or.inr hne)]
    simp
  · simp [fragmentsOfStroke, stroke5, pt5, runsAux, isSkipped]

/-- Witness for C4 at the concrete strokes `strokeFullySkipped` and
`strokeA`. -/
theorem resegmentation_fragment_cases_witness :
    fragmentsOfStroke strokeFullySkipped = [] ∧ fragmentsOfStroke strokeA = [strokeA] :=
  ⟨(resegmentation_fragment_cases strokeFullySkipped).1
      (by simp [strokeFullySkipped, strokeA, isSkipped]),
   (resegmentation_fragment_cases strokeA).2.1
      (by simp [strokeA]) (by simp [strokeA, isSkipped])⟩

/-! Helper lemmas for the interpolator's sample count: the computable
`ceilHalfSqrt` agrees with the source's `Math.ceil(Math.hypot(dx, dy) / 2)`
formula stated over `Real.sqrt`. -/

lemma distanceSquared_nonneg (p q : ℚ × ℚ) : 0 ≤ distanceSquared p q :=
  add_nonneg (mul_self_nonneg _) (mul_self_nonneg _)

lemma leastNAux_isLeast (s : ℚ) :
    ∀ (f n : ℕ), (∀ m : ℕ, m < n → ¬ s ≤ 4 * (m : ℚ) ^ 2) →
      s ≤ 4 * ((n + f : ℕ) : ℚ) ^ 2 →
      s ≤ 4 * ((leastNAux s f n : ℕ) : ℚ) ^ 2
        ∧ ∀ m : ℕ, m < leastNAux s f n → ¬ s ≤ 4 * (m : ℚ) ^ 2 := by
  intro f
  induction f with
  | zero =>
    intro n hlow hup
    refine ⟨?_, hlow⟩
    simpa [leastNAux] using hup
  | succ f ih =>
    intro n hlow hup
    simp only [leastNAux]
    split_ifs with h
    · exact ⟨h, hlow⟩
    · apply ih (n + 1)
      · intro m hm
        rcases Nat.lt_succ_iff_lt_or_eq.mp hm with h1 | h1
        · exact hlow m h1
        · rw [h1]; exact h
      · have harith : n + 1 + f = n + (f + 1) := by omega
        rw [harith]; exact hup

lemma rat_le_fuel (s : ℚ) : s ≤ 4 * ((s.num.toNat + 1 : ℕ) : ℚ) ^ 2 := by
  rcases le_or_lt s 0 with h | h
  · have h2 : (0:ℚ) ≤ 4 * ((s.num.toNat + 1 : ℕ) : ℚ) ^ 2 := by positivity
    linarith
  · have hnum : (0:ℤ) < s.num := Rat.num_pos.mpr h
    have hden : (1:ℚ) ≤ (s.den : ℚ) := by
      have h1 : 1 ≤ s.den := s.pos
      exact_mod_cast h1
    have hsle : s ≤ (s.num : ℚ) := by
      conv_lhs => rw [← Rat.num_div_den s]
      exact div_le_self (by exact_mod_cast hnum.le) hden
    have h2 : (s.num : ℚ) = ((s.num.toNat : ℕ) : ℚ) := by
      exact_mod_cast (Int.toNat_of_nonneg hnum.le).symm
    have h3 : ((s.num.toNat : ℕ) : ℚ) ≤ 4 * ((s.num.toNat + 1 : ℕ) : ℚ) ^ 2 := by
      have h4 : (0:ℚ) ≤ ((s.num.toNat : ℕ) : ℚ) := Nat.cast_nonneg _
      push_cast
      nlinarith
    calc s ≤ (s.num : ℚ) := hsle
      _ = ((s.num.toNat : ℕ) : ℚ) := h2
      _ ≤ 4 * ((s.num.toNat + 1 : ℕ) : ℚ) ^ 2 := h3

lemma ceilHalfSqrt_isLeast (s : ℚ) :
    s ≤ 4 * ((ceilHalfSqrt s : ℕ) : ℚ) ^ 2
      ∧ ∀ m : ℕ, m < ceilHalfSqrt s → ¬ s ≤ 4 * (m : ℚ) ^ 2 := by
  have h := leastNAux_isLeast s (s.num.toNat + 1) 0
    (fun m hm => absurd hm (Nat.not_lt_zero m))
    (by simpa using rat_le_fuel s)
  simpa [ceilHalfSqrt] using h

lemma ceilHalfSqrt_eq_ceil (s : ℚ) (hs : 0 ≤ s) :
    (ceilHalfSqrt s : ℤ) = ⌈Real.sqrt (s : ℝ) / 2⌉ := by
  obtain ⟨hle, hmin⟩ := ceilHalfSqrt_isLeast s
  have hsR : (0:ℝ) ≤ (s : ℝ) := by exact_mod_cast hs
  have hleR : (s : ℝ) ≤ 4 * ((ceilHalfSqrt s : ℕ) : ℝ) ^ 2 := by exact_mod_cast hle
  have hsqrt_le : Real.sqrt (s : ℝ) ≤ 2 * ((ceilHalfSqrt s : ℕ) : ℝ) := by
    have h1 : (s : ℝ) ≤ (2 * ((ceilHalfSqrt s : ℕ) : ℝ)) ^ 2 := by nlinarith
    have h2 : Real.sqrt (s : ℝ) ≤ Real.sqrt ((2 * ((ceilHalfSqrt s : ℕ) : ℝ)) ^ 2) :=
      Real.sqrt_le_sqrt h1
    rwa [Real.sqrt_sq (by positivity)] at h2
  apply le_antisymm
  · by_contra hcon
    push_neg at hcon
    have hc0 : 0 ≤ ⌈Real.sqrt (s : ℝ) / 2⌉ :=
      Int.ceil_nonneg (by positivity)
    have hmem : ((⌈Real.sqrt (s : ℝ) / 2⌉.toNat : ℕ) : ℤ) = ⌈Real.sqrt (s : ℝ) / 2⌉ :=
      Int.toNat_of_nonneg hc0
    have hmn : ⌈Real.sqrt (s : ℝ) / 2⌉.toNat < ceilHalfSqrt s := by omega
    refine hmin _ hmn ?_
    have h1 : Real.sqrt (s : ℝ) / 2 ≤ ((⌈Real.sqrt (s : ℝ) / 2⌉.toNat : ℕ) : ℝ) := by
      have h2 := Int.le_ceil (Real.sqrt (s : ℝ) / 2)
      have h3 : ((⌈Real.sqrt (s : ℝ) / 2⌉ : ℤ) : ℝ)
          = ((⌈Real.sqrt (s : ℝ) / 2⌉.toNat : ℕ) : ℝ) := by exact_mod_cast hmem.symm
      linarith [h2, h3.le, h3.ge]
    have h4 : Real.sqrt (s : ℝ) ≤ 2 * ((⌈Real.sqrt (s : ℝ) / 2⌉.toNat : ℕ) : ℝ) := by
      linarith
    have h5 : (s : ℝ) ≤ 4 * ((⌈Real.sqrt (s : ℝ) / 2⌉.toNat : ℕ) : ℝ) ^ 2 := by
      nlinarith [Real.sq_sqrt hsR, Real.sqrt_nonneg (s : ℝ)]
    exact_mod_cast h5
  · rw [Int.ceil_le]
    push_cast
    linarith

lemma numIntervals_eq_spec (s : ℚ) (hs : 0 ≤ s) :
    numIntervals s = max 1 (Int.toNat ⌈Real.sqrt (s : ℝ) / 2⌉) := by
  rw [numIntervals, ← ceilHalfSqrt_eq_ceil s hs, Int.toNat_natCast]

/-! Helper lemmas relating the interpolator's loop to the arc-chain
description. -/

lemma interpLoop_eq_innerArcs (l : List (ℚ × ℚ)) :
    ∀ a b : ℚ × ℚ,
      interpLoop (midPoint a b) (b :: l)
        = (innerArcs a (b :: l)).flatMap fun arc => sampleArc arc.1 arc.2.1 arc.2.2 := by
  induction l with
  | nil => intro a b; rfl
  | cons c rest ih =>
    intro a b
    simp only [interpLoop, innerArcs, List.flatMap_cons]
    rw [ih b c]

lemma sampleArc_ne_nil (o c d : ℚ × ℚ) : sampleArc o c d ≠ [] := by
  intro h
  have h1 := congrArg List.length h
  rw [sampleArc, interpolateQuadraticCurve, List.length_map, List.length_range,
    numIntervals, List.length_nil] at h1
  omega

/-! Claim C5: per-arc sample count and Bezier evaluation. -/

/-- C5: the interpolated stroke's points after the verbatim first point
are exactly the per-arc samples, in order, over the arc chain whose
endpoints are the midpoints of consecutive raw points (the raw point
being the control point, the initial arc starting at the first raw
point); and each arc with chord length `L = √(distance²)` contributes
exactly `max(1, ⌈L / 2⌉)` samples, evaluated at `t = i / n` by
`B(t) = (1-t)²·origin + 2(1-t)t·control + t²·destination`. -/
theorem arc_sample_count_and_bezier (W H : ℚ) (sty : Stroke) (p0 : Point)
    (rest : List Point) :
    (interpolateExistingShapePaths W H { sty with points := p0 :: rest }).points.tail
      = ((specArcs ((p0 :: rest).map (toPixel W H))).flatMap
          fun arc => sampleArc arc.1 arc.2.1 arc.2.2).map (toNormalized W H)
    ∧ ∀ o c d : ℚ × ℚ,
        sampleArc o c d
          = (List.range (max 1 (Int.toNat ⌈Real.sqrt ((distanceSquared d o : ℚ) : ℝ) / 2⌉))).map
              fun (i : ℕ) => bezPoint o c d
                ((i : ℚ) /
                  ((max 1 (Int.toNat ⌈Real.sqrt ((distanceSquared d o : ℚ) : ℝ) / 2⌉) : ℕ) : ℚ)) := by
  constructor
  · cases rest with
    | nil => rfl
    | cons p1 r =>
      simp only [interpolateExistingShapePaths, List.map_cons, interpPoints,
        List.tail_cons, specArcs, List.flatMap_cons]
      rw [← interpLoop_eq_innerArcs]
  · intro o c d
    have hkey := numIntervals_eq_spec (distanceSquared d o) (distanceSquared_nonneg d o)
    simp only [sampleArc, interpolateQuadraticCurve]
    rw [hkey]

/-! Claim C6: the interpolated stroke starts exactly at the raw start. -/

/-- C6: for a finished raw stroke the interpolated output's first point
equals the first raw point — the denormalize-then-renormalize round trip
is exact in exact arithmetic — and a one-point raw stroke yields exactly
that single point with no arc samples. -/
theorem interpolation_first_point_exact (W H : ℚ) (hW : W ≠ 0) (hH : H ≠ 0)
    (sty : Stroke) (p0 : Point) (rest : List Point) :
    (interpolateExistingShapePaths W H { sty with points := p0 :: rest }).points.head?
        = some ⟨p0.x, p0.y, none⟩
    ∧ (interpolateExistingShapePaths W H { sty with points := [p0] }).points
        = [⟨p0.x, p0.y, none⟩] := by
  have hx : p0.x * W / W = p0.x := mul_div_cancel_right₀ p0.x hW
  have hy : p0.y * H / H = p0.y := mul_div_cancel_right₀ p0.y hH
  constructor
  · cases rest with
    | nil => simp [interpolateExistingShapePaths, interpPoints, toPixel, hx, hy]
    | cons p1 r => simp [interpolateExistingShapePaths, interpPoints, toPixel, hx, hy]
  · simp [interpolateExistingShapePaths, interpPoints, toPixel, hx, hy]

/-- Witness for C6 on a 100 x 100 canvas with the one-point stroke
`[exPoint]`. -/
theorem interpolation_first_point_exact_witness :
    (interpolateExistingShapePaths 100 100 { strokeA with points := [exPoint] }).points
      = [⟨exPoint.x, exPoint.y, none⟩] :=
  (interpolation_first_point_exact 100 100 (by simp) (by simp) strokeA exPoint []).2

/-! Claim C10: shape of the interpolated points' `skipped` field. -/

/-- C10: for a raw stroke with at least two points, the interpolation
output starts with a point whose `skipped` field is absent (`none`),
followed by a non-empty list of points all carrying `skipped = false` —
the output points are not uniform in shape at their head. -/
theorem interpolated_points_head_nonuniform (W H : ℚ) (sty : Stroke) (p0 p1 : Point)
    (rest : List Point) :
    ∃ q qs,
      (interpolateExistingShapePaths W H { sty with points := p0 :: p1 :: rest }).points
          = q :: qs
        ∧ q.skipped = none ∧ qs ≠ [] ∧ ∀ r ∈ qs, r.skipped = some false := by
  refine ⟨_, _, rfl, rfl, ?_, ?_⟩
  · intro hqs
    rcases List.append_eq_nil.mp (List.map_eq_nil_iff.mp hqs) with ⟨h1, _⟩
    exact sampleArc_ne_nil _ _ _ h1
  · intro r hr
    rcases List.mem_map.mp hr with ⟨q', _, rfl⟩
    rfl

end Sketchpad

